import Mathlib

/-!
Verification of the `reckt` panic-reachability analyser (`reckt.go`).

We shallowly embed the core of the tool: the instruction/function data
model, the pointer-analysis call graph, the boundary classifier `end`
(here `endCheck`, since `end` is a Lean keyword), the suppression
detector `hasRecover`, the raise locator `findPanics` and the backward
search `pathToRoot`.

Go pointers are encoded as numeric identities (`Nat` ids) together with
lookup in the graph's node list; a nil `*callgraph.Node` is `none`.
The Go recursion of `pathToRoot` terminates via its visited set; the
embedding makes this explicit with a fuel parameter, and we prove that
`g.nodes.length + 2` units of fuel are always enough (adding fuel never
changes the result), which is the termination argument of the source.
-/

namespace Reckt

/-- The value called by a call instruction (`ssa.CallCommon.Value`):
a built-in operation (queryable by name, e.g. `recover`), a reference to
a regular function, or a dynamic (interface/closure) value. -/
inductive CallValue where
  | builtin (name : String)
  | fnref (fid : Nat)
  | dyn
deriving DecidableEq, Repr

/-- SSA instructions, restricted to the variants `reckt` inspects:
`*ssa.Call`, `*ssa.Defer`, `*ssa.Go`, `*ssa.Panic`, and anything else. -/
inductive Instr where
  | call (v : CallValue)
  | deferCall (v : CallValue)
  | goCall (v : CallValue)
  | panicInstr (pid : Nat)
  | other
deriving DecidableEq, Repr

/-- An `ssa.Function`: pointer identity `fid` plus the ordered basic
blocks, each an ordered list of instructions. -/
structure Function where
  fid : Nat
  blocks : List (List Instr)
deriving DecidableEq, Repr

/-- The dynamic type of a call-graph edge's `Site` instruction
(an `ssa.CallInstruction`): `*ssa.Call`, `*ssa.Defer` or `*ssa.Go`. -/
inductive SiteKind where
  | callK
  | deferK
  | goK
deriving DecidableEq, Repr

/-- A call site: pointer identity `sid` (two edges produced by the same
`Defer` instruction share one `sid`) and its instruction kind. -/
structure Site where
  sid : Nat
  kind : SiteKind
deriving DecidableEq, Repr

/-- A `callgraph.Edge`: caller node id, callee node id, and the
originating call site (`none` models a nil `Site`, e.g. synthetic
root edges). -/
structure Edge where
  caller : Nat
  callee : Nat
  site : Option Site
deriving DecidableEq, Repr

/-- A `callgraph.Node`: pointer identity `id`, its `ssa.Function`, and
its incoming (`n.In`) and outgoing (`n.Out`) edge lists. -/
structure Node where
  id : Nat
  fn : Function
  inE : List Edge
  outE : List Edge
deriving DecidableEq, Repr

/-- A `callgraph.Graph`: the designated root node id and the node list
(the range of `cg.Nodes` after `DeleteSyntheticNodes`). -/
structure Graph where
  root : Nat
  nodes : List Node
deriving DecidableEq, Repr

/-- Dereference a node id, i.e. follow a `*callgraph.Node` pointer. -/
def Graph.find (g : Graph) (i : Nat) : Option Node :=
  g.nodes.find? (fun nd => nd.id == i)

/-- The map lookup `cg.Nodes[f]` for the function with identity `fid`:
`none` models the nil pointer returned for a function absent from the
call graph. -/
def Graph.nodeRef (g : Graph) (fid : Nat) : Option Nat :=
  (g.nodes.find? (fun nd => nd.fn.fid == fid)).map Node.id

/-- The function of a callee node, following the `f.Func` field of a
group member in `allrecovers`.  Call-graph edges always resolve (their
`Callee` pointer is never nil), so the default is never taken on
well-formed graphs. -/
def Graph.funcOfId (g : Graph) (c : Nat) : Function :=
  ((g.find c).map Node.fn).getD ⟨0, []⟩

/-- Whether one instruction is a plain `*ssa.Call` whose call value is
the `recover` built-in (the body of the loop of `hasRecover`). -/
def isRecoverCall : Instr → Bool
  | .call (.builtin name) => name == "recover"
  | _ => false

/-- `hasRecover(f *ssa.Function) bool`: scan every block and every
instruction for a plain call to the `recover` built-in. -/
def hasRecover (f : Function) : Bool :=
  f.blocks.any (fun b => b.any isRecoverCall)

/-- `allrecovers(o []*callgraph.Node) bool`: every node in the group has
a function containing a `recover` call. -/
def allrecovers (g : Graph) (cs : List Nat) : Bool :=
  cs.all (fun c => hasRecover (g.funcOfId c))

/-- The defer-site identity of an edge, when its `Site` is a
`*ssa.Defer` (the type assertion `o.Site.(*ssa.Defer)`). -/
def deferSiteId (e : Edge) : Option Nat :=
  match e.site with
  | some s => if s.kind == SiteKind.deferK then some s.sid else none
  | none => none

/-- The keys of the `defers` map built by `end`: the distinct `Defer`
instructions originating outgoing edges of `nd`. -/
def deferIds (nd : Node) : List Nat :=
  (nd.outE.filterMap deferSiteId).dedup

/-- One value of the `defers` map: the callee node ids of all outgoing
edges of `nd` originating from the `Defer` instruction `d`. -/
def deferGroup (nd : Node) (d : Nat) : List Nat :=
  nd.outE.filterMap (fun o =>
    match deferSiteId o with
    | some d2 => if d2 == d then some o.callee else none
    | none => none)

/-- The loop over the `defers` map in `end`: does some deferred
call-site of `nd` dispatch only to functions that call `recover`? -/
def hasSuppressingDefer (g : Graph) (nd : Node) : Bool :=
  (deferIds nd).any (fun d => allrecovers g (deferGroup nd d))

/-- The type assertion `in.Site.(*ssa.Go)` on an incoming edge. -/
def isGoEdge (e : Edge) : Bool :=
  match e.site with
  | some s => s.kind == SiteKind.goK
  | none => false

/-- `end(root, n *callgraph.Node) (isend, isdeadend bool)`: the boundary
classifier.  A nil node is a boundary success; a node with a deferred
call-site dispatching only to recovering functions is a dead end (this
is checked first); the root, and any node with an incoming `Go` edge,
are boundary successes; otherwise the search continues. -/
def endCheck (g : Graph) (n : Option Node) : Bool × Bool :=
  match n with
  | none => (true, false)
  | some nd =>
    if hasSuppressingDefer g nd then (false, true)
    else if nd.id == g.root then (true, false)
    else if nd.inE.any isGoEdge then (true, false)
    else (false, false)

/-- Dereference a node reference (a possibly-nil `*callgraph.Node`). -/
def resolveRef (g : Graph) (n : Option Nat) : Option Node :=
  n.bind g.find

/-- The incoming edges `n.In` of a node reference.  In `pathToRoot` this
is only read in the continue-search branch, where the node is never nil
(`end` already returned success for nil), so the `[]` default for nil is
unreachable there. -/
def inEdges (g : Graph) (n : Option Nat) : List Edge :=
  match resolveRef g n with
  | some nd => nd.inE
  | none => []

/-- The located panics: `findPanics` yields `*ssa.Panic` values, each
carrying its parent function (`p.Parent()`); `pid` is the instruction's
pointer identity. -/
structure PanicSite where
  parent : Nat
  pid : Nat
deriving DecidableEq, Repr

/-- The type assertion `i.(*ssa.Panic)` of `findPanics`, as an
extraction: a panic instruction yields the raise site (parent function,
instruction), anything else yields nothing. -/
def panicOf (fid : Nat) (i : Instr) : Option PanicSite :=
  match i with
  | Instr.panicInstr pid => some ⟨fid, pid⟩
  | _ => none

/-- `findPanics(prog *ssa.Program) []*ssa.Panic`: scan every block of
every function of the whole program for `*ssa.Panic` instructions.  The
program model is its function list (`ssautil.AllFunctions`). -/
def findPanics (prog : List Function) : List PanicSite :=
  prog.flatMap (fun f => f.blocks.flatMap (fun b => b.filterMap (panicOf f.fid)))

/-- The edge loop of the closure `search` in `pathToRoot`, abstracted
over the recursive call `f` (which is `searchNode` at the remaining
fuel): push the edge, recurse into the caller, propagate success, else
pop and continue with the next incoming edge.  The visited set threads
through; the stack is restored on backtracking. -/
def searchEdges (f : List (Option Nat) → List Edge → Option Nat →
    List (Option Nat) × Option (List Edge)) :
    List (Option Nat) → List Edge → List Edge →
    List (Option Nat) × Option (List Edge)
  | seen, _, [] => (seen, none)
  | seen, stack, e :: rest =>
    match f seen (stack ++ [e]) (some e.caller) with
    | (seen2, some found) => (seen2, some found)
    | (seen2, none) => searchEdges f seen2 stack rest

/-- The closure `search(n *callgraph.Node) []*callgraph.Edge` of
`pathToRoot`, with the mutable `seen` set and `stack` made explicit and
a fuel parameter standing for the (terminating) Go recursion.  Returns
the final visited set and `some` witness stack on success, `none` for
the nil slice "no path". -/
def searchNode (g : Graph) : Nat → List (Option Nat) → List Edge →
    Option Nat → List (Option Nat) × Option (List Edge)
  | 0, seen, _, _ => (seen, none)
  | fuel + 1, seen, stack, n =>
    if n ∈ seen then (seen, none)
    else
      let seen2 := n :: seen
      let ed := endCheck g (resolveRef g n)
      if ed.2 then (seen2, none)
      else if ed.1 then (seen2, some stack)
      else searchEdges (searchNode g fuel) seen2 stack (inEdges g n)

/-- Fuel that the termination theorem proves sufficient for any search
on `g`: one unit per node, one for the nil reference, one to spare. -/
def defaultFuel (g : Graph) : Nat :=
  g.nodes.length + 2

/-- `pathToRoot(p *ssa.Panic, cg *callgraph.Graph) []*callgraph.Edge`:
look up the panic's enclosing function in `cg.Nodes` (possibly nil) and
run the backward search from it with fresh `seen`/`stack` state. -/
def pathToRoot (g : Graph) (p : PanicSite) : Option (List Edge) :=
  (searchNode g (defaultFuel g) [] [] (g.nodeRef p.parent)).2

/-- The reporting condition of `main`: `len(path) != 0`, where both the
nil slice and a successful empty stack have length zero. -/
def reported (g : Graph) (p : PanicSite) : Bool :=
  ((pathToRoot g p).getD []).length != 0

/-- Well-formedness of the call graph, as guaranteed by the
`golang.org/x/tools/go/callgraph` collaborator: every incoming edge of a
node ends at that node, and every edge's caller pointer resolves to a
node present in the graph. -/
def Graph.WF (g : Graph) : Prop :=
  (∀ nd ∈ g.nodes, ∀ e ∈ nd.inE, e.callee = nd.id) ∧
  (∀ nd ∈ g.nodes, ∀ e ∈ nd.inE, ∃ nd2 ∈ g.nodes, nd2.id = e.caller)

instance (g : Graph) : Decidable g.WF := by
  unfold Graph.WF
  exact inferInstance

/-- A node reference is meaningful: either the nil pointer, or the id of
a node present in the graph. -/
def refOK (g : Graph) (n : Option Nat) : Prop :=
  n = none ∨ ∃ nd ∈ g.nodes, n = some nd.id

theorem find_mem {g : Graph} {i : Nat} {nd : Node} (h : g.find i = some nd) :
    nd ∈ g.nodes :=
  List.mem_of_find?_eq_some h

theorem find_id {g : Graph} {i : Nat} {nd : Node} (h : g.find i = some nd) :
    nd.id = i := by
  have := List.find?_some h
  simpa using this

theorem resolveRef_eq_some {g : Graph} {n : Option Nat} {nd : Node}
    (h : resolveRef g n = some nd) :
    n = some nd.id ∧ g.find nd.id = some nd := by
  rcases n with _ | i
  · simp [resolveRef] at h
  · simp only [resolveRef, Option.bind_some] at h
    have hid := find_id h
    subst hid
    exact ⟨rfl, h⟩

theorem resolveRef_mem {g : Graph} {n : Option Nat} {nd : Node}
    (h : resolveRef g n = some nd) : nd ∈ g.nodes := by
  rcases n with _ | i
  · simp [resolveRef] at h
  · exact find_mem h

theorem nodeRef_refOK (g : Graph) (fid : Nat) : refOK g (g.nodeRef fid) := by
  unfold refOK Graph.nodeRef
  cases h : g.nodes.find? (fun nd => nd.fn.fid == fid) with
  | none => exact Or.inl rfl
  | some nd => exact Or.inr ⟨nd, List.mem_of_find?_eq_some h, rfl⟩

/-! ### The shape of a successful search

A successful search returns the input stack extended by a backward
witness: a chain of incoming edges, each taken at a node the classifier
told the search to pass through, ending at a node the classifier
classified as a boundary success. -/

/-- A backward witness starting at node reference `n`: either `n`
itself is a boundary success and the witness is empty, or the search
passed through the resolved node (classifier said continue), took one of
its incoming edges, and the rest is a witness from that edge's caller. -/
inductive WitnessFrom (g : Graph) : Option Nat → List Edge → Prop
  | done (n : Option Nat)
      (h : endCheck g (resolveRef g n) = (true, false)) :
      WitnessFrom g n []
  | step (n : Option Nat) (nd : Node) (e : Edge) (ext : List Edge)
      (hres : resolveRef g n = some nd)
      (hend : endCheck g (some nd) = (false, false))
      (he : e ∈ nd.inE)
      (hw : WitnessFrom g (some e.caller) ext) :
      WitnessFrom g n (e :: ext)

/-- Unfolding equation of `searchNode` at positive fuel, with the lets
expanded. -/
theorem searchNode_succ_eq (g : Graph) (fuel : Nat) (seen : List (Option Nat))
    (stack : List Edge) (n : Option Nat) :
    searchNode g (fuel + 1) seen stack n =
      if n ∈ seen then (seen, none)
      else if (endCheck g (resolveRef g n)).2 then (n :: seen, none)
      else if (endCheck g (resolveRef g n)).1 then (n :: seen, some stack)
      else searchEdges (searchNode g fuel) (n :: seen) stack (inEdges g n) := rfl

theorem searchEdges_success {g : Graph}
    (f : List (Option Nat) → List Edge → Option Nat →
      List (Option Nat) × Option (List Edge))
    (hf : ∀ seen stack n s res, f seen stack n = (s, some res) →
      ∃ ext, res = stack ++ ext ∧ WitnessFrom g n ext) :
    ∀ es seen stack s res, searchEdges f seen stack es = (s, some res) →
      ∃ e ext, e ∈ es ∧ res = stack ++ e :: ext ∧
        WitnessFrom g (some e.caller) ext := by
  intro es
  induction es with
  | nil => intro seen stack s res h; simp [searchEdges] at h
  | cons e rest ih =>
    intro seen stack s res h
    rw [searchEdges] at h
    cases hcall : f seen (stack ++ [e]) (some e.caller) with
    | mk s2 r =>
      rw [hcall] at h
      cases r with
      | some found =>
        simp only [Prod.mk.injEq, Option.some.injEq] at h
        obtain ⟨rfl, rfl⟩ := h
        obtain ⟨ext, hext, hw⟩ := hf _ _ _ _ _ hcall
        exact ⟨e, ext, List.mem_cons_self e rest, by simpa using hext, hw⟩
      | none =>
        obtain ⟨e2, ext, he2, hext, hw⟩ := ih _ _ _ _ h
        exact ⟨e2, ext, List.mem_cons_of_mem e he2, hext, hw⟩

theorem searchNode_success (g : Graph) :
    ∀ fuel seen stack n s res,
      searchNode g fuel seen stack n = (s, some res) →
      ∃ ext, res = stack ++ ext ∧ WitnessFrom g n ext := by
  intro fuel
  induction fuel with
  | zero => intro seen stack n s res h; simp [searchNode] at h
  | succ fuel ih =>
    intro seen stack n s res h
    rw [searchNode_succ_eq] at h
    by_cases hseen : n ∈ seen
    · simp [hseen] at h
    · rcases hed : endCheck g (resolveRef g n) with ⟨b1, b2⟩
      rw [hed] at h
      cases b2
      · cases b1
        · have h2 : searchEdges (searchNode g fuel) (n :: seen) stack (inEdges g n) =
              (s, some res) := by
            simpa [hseen] using h
          obtain ⟨e, ext, he, hext, hw⟩ := searchEdges_success _ ih _ _ _ _ _ h2
          cases hres : resolveRef g n with
          | none => rw [inEdges, hres] at he; simp at he
          | some nd =>
            rw [inEdges, hres] at he
            have hend : endCheck g (some nd) = (false, false) := by
              rw [← hres, hed]
            exact ⟨e :: ext, hext, WitnessFrom.step n nd e ext hres hend he hw⟩
        · have h2 : n :: seen = s ∧ stack = res := by simpa [hseen] using h
          exact ⟨[], by rw [← h2.2, List.append_nil], WitnessFrom.done n (by rw [hed])⟩
      · simp [hseen] at h

/-! ### Monotonicity of the visited set -/

theorem searchEdges_sub
    (f : List (Option Nat) → List Edge → Option Nat →
      List (Option Nat) × Option (List Edge))
    (hf : ∀ seen stack n, seen ⊆ (f seen stack n).1) :
    ∀ es seen stack, seen ⊆ (searchEdges f seen stack es).1 := by
  intro es
  induction es with
  | nil => intro seen stack; simp [searchEdges]
  | cons e rest ih =>
    intro seen stack
    rw [searchEdges]
    cases hcall : f seen (stack ++ [e]) (some e.caller) with
    | mk s2 r =>
      have hsub : seen ⊆ s2 := by
        have := hf seen (stack ++ [e]) (some e.caller)
        rw [hcall] at this; exact this
      cases r with
      | some found => exact hsub
      | none => exact hsub.trans (ih s2 stack)

theorem searchNode_sub (g : Graph) :
    ∀ fuel seen stack n, seen ⊆ (searchNode g fuel seen stack n).1 := by
  intro fuel
  induction fuel with
  | zero => intro seen stack n; simp [searchNode]
  | succ fuel ih =>
    intro seen stack n
    rw [searchNode_succ_eq]
    by_cases hseen : n ∈ seen
    · simp [hseen]
    · have hcons : seen ⊆ n :: seen := List.subset_cons_self n seen
      rcases hed : endCheck g (resolveRef g n) with ⟨b1, b2⟩
      cases b2
      · cases b1
        · simp only [hseen, if_false]
          simp only [Prod.snd, Prod.fst, Bool.false_eq_true, if_false]
          exact hcons.trans (searchEdges_sub _ (ih) _ _ _)
        · simp [hseen]
      · simp [hseen]

/-! ### Termination: counting unvisited node references

The Go recursion terminates because `seen` strictly grows along every
chain of nested calls and all references it can ever hold are drawn from
the graph's nodes plus the nil pointer.  We make the bound explicit and
prove that results are insensitive to fuel beyond it. -/

/-- All node references a search on `g` can encounter: the nil pointer
and the id of each node. -/
def validRefs (g : Graph) : Finset (Option Nat) :=
  insert none ((g.nodes.map (fun nd => some nd.id)).toFinset)

/-- How many meaningful references are not yet in the visited set. -/
def countUnseen (g : Graph) (seen : List (Option Nat)) : Nat :=
  (validRefs g \ seen.toFinset).card

theorem refOK_mem_validRefs {g : Graph} {n : Option Nat} (h : refOK g n) :
    n ∈ validRefs g := by
  rcases h with rfl | ⟨nd, hnd, rfl⟩
  · exact Finset.mem_insert_self _ _
  · exact Finset.mem_insert_of_mem (by
      rw [List.mem_toFinset]
      exact List.mem_map_of_mem _ hnd)

theorem countUnseen_cons_lt {g : Graph} {n : Option Nat}
    {seen : List (Option Nat)} (h1 : refOK g n) (h2 : n ∉ seen) :
    countUnseen g (n :: seen) < countUnseen g seen := by
  unfold countUnseen
  apply Finset.card_lt_card
  rw [List.toFinset_cons]
  rw [Finset.ssubset_iff_of_subset
    (Finset.sdiff_subset_sdiff (Finset.Subset.refl _) (Finset.subset_insert _ _))]
  refine ⟨n, Finset.mem_sdiff.2 ⟨refOK_mem_validRefs h1, ?_⟩, ?_⟩
  · simpa [List.mem_toFinset] using h2
  · simp [Finset.mem_sdiff]

theorem countUnseen_le_of_subset {g : Graph} {s1 s2 : List (Option Nat)}
    (h : s1 ⊆ s2) : countUnseen g s2 ≤ countUnseen g s1 := by
  apply Finset.card_le_card
  apply Finset.sdiff_subset_sdiff (Finset.Subset.refl _)
  intro x hx
  rw [List.mem_toFinset] at hx ⊢
  exact h hx

theorem countUnseen_nil_lt (g : Graph) : countUnseen g [] < defaultFuel g := by
  unfold countUnseen defaultFuel
  have h1 : (([] : List (Option Nat)).toFinset : Finset (Option Nat)) = ∅ := rfl
  rw [h1, Finset.sdiff_empty]
  calc (validRefs g).card
      ≤ ((g.nodes.map (fun nd => some nd.id)).toFinset).card + 1 :=
        Finset.card_insert_le _ _
    _ ≤ (g.nodes.map (fun nd => some nd.id)).length + 1 :=
        Nat.add_le_add_right (List.toFinset_card_le _) 1
    _ = g.nodes.length + 1 := by rw [List.length_map]
    _ < g.nodes.length + 2 := by omega

/-! ### Fuel insensitivity -/

theorem searchEdges_stable (g : Graph) (fuel : Nat)
    (hPn : ∀ seen stack n, refOK g n → countUnseen g seen < fuel →
      searchNode g fuel seen stack n = searchNode g (fuel + 1) seen stack n) :
    ∀ es seen stack, (∀ e ∈ es, refOK g (some e.caller)) →
      countUnseen g seen < fuel →
      searchEdges (searchNode g fuel) seen stack es =
        searchEdges (searchNode g (fuel + 1)) seen stack es := by
  intro es
  induction es with
  | nil => intro seen stack _ _; rfl
  | cons e rest ih =>
    intro seen stack hok hcount
    rw [searchEdges, searchEdges]
    have heq := hPn seen (stack ++ [e]) (some e.caller)
      (hok e (List.mem_cons_self e rest)) hcount
    rw [← heq]
    cases hcall : searchNode g fuel seen (stack ++ [e]) (some e.caller) with
    | mk s2 r =>
      cases r with
      | some found => rfl
      | none =>
        have hsub : seen ⊆ s2 := by
          have := searchNode_sub g fuel seen (stack ++ [e]) (some e.caller)
          rw [hcall] at this; exact this
        exact ih s2 stack (fun e2 he2 => hok e2 (List.mem_cons_of_mem e he2))
          (lt_of_le_of_lt (countUnseen_le_of_subset hsub) hcount)

theorem searchNode_stable (g : Graph) (hwf : g.WF) :
    ∀ fuel seen stack n, refOK g n → countUnseen g seen < fuel →
      searchNode g fuel seen stack n = searchNode g (fuel + 1) seen stack n := by
  intro fuel
  induction fuel with
  | zero => intro seen stack n _ hcount; omega
  | succ fuel ih =>
    intro seen stack n hok hcount
    rw [searchNode_succ_eq, searchNode_succ_eq]
    by_cases hseen : n ∈ seen
    · simp [hseen]
    · rcases hed : endCheck g (resolveRef g n) with ⟨b1, b2⟩
      cases b2
      · cases b1
        · simp only [hseen, if_false]
          have hgoal : searchEdges (searchNode g fuel) (n :: seen) stack (inEdges g n) =
              searchEdges (searchNode g (fuel + 1)) (n :: seen) stack (inEdges g n) := by
            apply searchEdges_stable g fuel ih
            · intro e he
              cases hres : resolveRef g n with
              | none => rw [inEdges, hres] at he; simp at he
              | some nd =>
                rw [inEdges, hres] at he
                obtain ⟨nd2, hnd2, hid⟩ := hwf.2 nd (resolveRef_mem hres) e he
                exact Or.inr ⟨nd2, hnd2, by rw [hid]⟩
            · have := countUnseen_cons_lt hok hseen
              omega
          simpa using hgoal
        · simp [hseen]
      · simp [hseen]

theorem searchNode_add_fuel (g : Graph) (hwf : g.WF) (fuel k : Nat)
    (seen : List (Option Nat)) (stack : List Edge) (n : Option Nat)
    (hok : refOK g n) (hcount : countUnseen g seen < fuel) :
    searchNode g fuel seen stack n = searchNode g (fuel + k) seen stack n := by
  induction k with
  | zero => rfl
  | succ k ih =>
    rw [ih]
    have hlt : countUnseen g seen < fuel + k :=
      lt_of_lt_of_le hcount (Nat.le_add_right _ _)
    exact searchNode_stable g hwf (fuel + k) seen stack n hok hlt

/-! ### Map iteration order of the defer groups

`end` iterates a Go map `defers`, whose key enumeration order is
unspecified.  We model a run of the program by an `ord` function giving,
for each node, the enumeration order of its defer-group keys; a run is
admissible when `ord` enumerates exactly the keys (a permutation of
`deferIds`).  All admissible runs coincide with the canonical
`endCheck`/`searchNode`/`pathToRoot`. -/

/-- The defer-map loop of `end` under key enumeration order `ord`. -/
def hasSuppressingDeferOrd (g : Graph) (ord : Nat → List Nat) (nd : Node) : Bool :=
  (ord nd.id).any (fun d => allrecovers g (deferGroup nd d))

/-- The classifier `end` under defer-map key enumeration order `ord`. -/
def endCheckOrd (g : Graph) (ord : Nat → List Nat) (n : Option Node) : Bool × Bool :=
  match n with
  | none => (true, false)
  | some nd =>
    if hasSuppressingDeferOrd g ord nd then (false, true)
    else if nd.id == g.root then (true, false)
    else if nd.inE.any isGoEdge then (true, false)
    else (false, false)

/-- The search under defer-map key enumeration order `ord`. -/
def searchNodeOrd (g : Graph) (ord : Nat → List Nat) : Nat → List (Option Nat) →
    List Edge → Option Nat → List (Option Nat) × Option (List Edge)
  | 0, seen, _, _ => (seen, none)
  | fuel + 1, seen, stack, n =>
    if n ∈ seen then (seen, none)
    else
      let seen2 := n :: seen
      let ed := endCheckOrd g ord (resolveRef g n)
      if ed.2 then (seen2, none)
      else if ed.1 then (seen2, some stack)
      else searchEdges (searchNodeOrd g ord fuel) seen2 stack (inEdges g n)

/-- The full per-panic search under defer-map key enumeration order `ord`. -/
def pathToRootOrd (g : Graph) (ord : Nat → List Nat) (p : PanicSite) :
    Option (List Edge) :=
  (searchNodeOrd g ord (defaultFuel g) [] [] (g.nodeRef p.parent)).2

theorem searchNodeOrd_succ_eq (g : Graph) (ord : Nat → List Nat) (fuel : Nat)
    (seen : List (Option Nat)) (stack : List Edge) (n : Option Nat) :
    searchNodeOrd g ord (fuel + 1) seen stack n =
      if n ∈ seen then (seen, none)
      else if (endCheckOrd g ord (resolveRef g n)).2 then (n :: seen, none)
      else if (endCheckOrd g ord (resolveRef g n)).1 then (n :: seen, some stack)
      else searchEdges (searchNodeOrd g ord fuel) (n :: seen) stack (inEdges g n) := rfl

theorem any_eq_of_perm {l1 l2 : List Nat} (h : l1.Perm l2) (p : Nat → Bool) :
    l1.any p = l2.any p := by
  cases hb : l2.any p
  · rw [List.any_eq_false] at hb ⊢
    intro x hx
    exact hb x (h.mem_iff.1 hx)
  · rw [List.any_eq_true] at hb ⊢
    obtain ⟨x, hx, hpx⟩ := hb
    exact ⟨x, h.mem_iff.2 hx, hpx⟩

theorem endCheckOrd_eq (g : Graph) (ord : Nat → List Nat)
    (hord : ∀ nd ∈ g.nodes, (ord nd.id).Perm (deferIds nd)) (n : Option Node)
    (hn : ∀ nd, n = some nd → nd ∈ g.nodes) :
    endCheckOrd g ord n = endCheck g n := by
  cases n with
  | none => rfl
  | some nd =>
    have hperm := hord nd (hn nd rfl)
    have hsup : hasSuppressingDeferOrd g ord nd = hasSuppressingDefer g nd :=
      any_eq_of_perm hperm _
    simp only [endCheckOrd, endCheck, hsup]

theorem searchEdges_congr
    (f1 f2 : List (Option Nat) → List Edge → Option Nat →
      List (Option Nat) × Option (List Edge))
    (hf : ∀ seen stack n, f1 seen stack n = f2 seen stack n) :
    ∀ es seen stack, searchEdges f1 seen stack es = searchEdges f2 seen stack es := by
  intro es
  induction es with
  | nil => intro seen stack; rfl
  | cons e rest ih =>
    intro seen stack
    rw [searchEdges, searchEdges, hf]
    cases hcall : f2 seen (stack ++ [e]) (some e.caller) with
    | mk s2 r =>
      cases r with
      | some found => rfl
      | none => exact ih s2 stack

theorem searchNodeOrd_eq (g : Graph) (ord : Nat → List Nat)
    (hord : ∀ nd ∈ g.nodes, (ord nd.id).Perm (deferIds nd)) :
    ∀ fuel seen stack n,
      searchNodeOrd g ord fuel seen stack n = searchNode g fuel seen stack n := by
  intro fuel
  induction fuel with
  | zero => intro seen stack n; rfl
  | succ fuel ih =>
    intro seen stack n
    have hend : endCheckOrd g ord (resolveRef g n) = endCheck g (resolveRef g n) :=
      endCheckOrd_eq g ord hord _ (fun nd hres => resolveRef_mem hres)
    rw [searchNodeOrd_succ_eq, searchNode_succ_eq, hend]
    by_cases hseen : n ∈ seen
    · simp [hseen]
    · rcases hed : endCheck g (resolveRef g n) with ⟨b1, b2⟩
      cases b2
      · cases b1
        · simp only [hseen, if_false]
          have hg := searchEdges_congr _ _ (fun s st m => ih s st m)
            (inEdges g n) (n :: seen) stack
          simpa using hg
        · simp [hseen]
      · simp [hseen]

/-! ### Chain structure of witness paths -/

theorem witness_head_callee {g : Graph}
    (hwf1 : ∀ nd ∈ g.nodes, ∀ e ∈ nd.inE, e.callee = nd.id)
    {r : Nat} {e : Edge} {ext : List Edge}
    (hw : WitnessFrom g (some r) (e :: ext)) : e.callee = r := by
  cases hw with
  | step _ nd _ _ hres _ he _ =>
    obtain ⟨hsome, _⟩ := resolveRef_eq_some hres
    have hr : r = nd.id := by simpa using hsome
    rw [hwf1 nd (resolveRef_mem hres) e he, hr]

theorem witness_consec {g : Graph}
    (hwf1 : ∀ nd ∈ g.nodes, ∀ e ∈ nd.inE, e.callee = nd.id)
    {n : Option Nat} {ext : List Edge} (hw : WitnessFrom g n ext) :
    ∀ pre e e2 post, ext = pre ++ e :: e2 :: post → e2.callee = e.caller := by
  induction hw with
  | done _ _ =>
    intro pre e e2 post h
    simp at h
  | step n nd e0 ext0 hres hend he hwsub ih =>
    intro pre e e2 post h
    cases pre with
    | nil =>
      simp only [List.nil_append, List.cons.injEq] at h
      obtain ⟨rfl, hext⟩ := h
      rw [hext] at hwsub
      exact witness_head_callee hwf1 hwsub
    | cons q pre2 =>
      simp only [List.cons_append, List.cons.injEq] at h
      obtain ⟨rfl, hrest⟩ := h
      exact ih pre2 e e2 post hrest

/-! ### Small helper lemmas for the claims -/

theorem deferGroup_ne_nil_mem {nd : Node} {d : Nat} (h : deferGroup nd d ≠ []) :
    d ∈ deferIds nd := by
  rw [deferGroup, Ne, List.filterMap_eq_nil_iff] at h
  push_neg at h
  obtain ⟨o, ho, hne⟩ := h
  rw [deferIds, List.mem_dedup, List.mem_filterMap]
  refine ⟨o, ho, ?_⟩
  cases hsid : deferSiteId o with
  | none => rw [hsid] at hne; simp at hne
  | some d2 =>
    rw [hsid] at hne
    by_cases hd : d2 == d
    · have hdd : d2 = d := by simpa using hd
      rw [hdd]
    · simp [hd] at hne

/-- Whether an instruction is a `*ssa.Panic` (used below to state that
`findPanics` neither filters nor deduplicates). -/
def isPanicInstr : Instr → Bool
  | .panicInstr _ => true
  | _ => false

theorem length_panics_block (fid : Nat) (b : List Instr) :
    (b.filterMap (panicOf fid)).length = b.countP isPanicInstr := by
  induction b with
  | nil => rfl
  | cons i rest ih =>
    cases i <;> simp [List.filterMap_cons, List.countP_cons, isPanicInstr, panicOf, ih]

theorem panicOf_eq_some {fid : Nat} {i : Instr} {p : PanicSite} :
    panicOf fid i = some p ↔ i = Instr.panicInstr p.pid ∧ p.parent = fid := by
  cases p with
  | mk par pid =>
    cases i with
    | panicInstr pid2 =>
      simp only [panicOf, Option.some.injEq, PanicSite.mk.injEq, Instr.panicInstr.injEq]
      constructor <;> rintro ⟨h1, h2⟩ <;> simp [h1, h2]
    | call v => simp [panicOf]
    | deferCall v => simp [panicOf]
    | goCall v => simp [panicOf]
    | other => simp [panicOf]

theorem isRecoverCall_eq_true (i : Instr) :
    isRecoverCall i = true ↔ i = Instr.call (CallValue.builtin "recover") := by
  cases i with
  | call v =>
    cases v with
    | builtin name => simp [isRecoverCall]
    | fnref fid => simp [isRecoverCall]
    | dyn => simp [isRecoverCall]
  | deferCall v => simp [isRecoverCall]
  | goCall v => simp [isRecoverCall]
  | panicInstr pid => simp [isRecoverCall]
  | other => simp [isRecoverCall]

/-! ### The claims -/

/-- C1: for every non-nil call-graph node `N`, if some deferred-call
group of `N` has a non-empty callee set all of whose callees satisfy the
suppression detector, the boundary classifier returns
`(success = false, deadEnd = true)`; the statement places no condition
on root status or incoming spawn edges, so such a node is a dead end
even when it is the root or is reached by a spawn edge — the dead-end
check comes first. -/
theorem C1_suppressing_defer_group_dead_end (g : Graph) (nd : Node) (d : Nat)
    (hne : deferGroup nd d ≠ [])
    (hall : allrecovers g (deferGroup nd d) = true) :
    endCheck g (some nd) = (false, true) := by
  have hsup : hasSuppressingDefer g nd = true :=
    List.any_eq_true.2 ⟨d, deferGroup_ne_nil_mem hne, hall⟩
  simp [endCheck, hsup]

/-- C2: a node that is not a dead end and not the root but has an
incoming spawn (`Go`) edge is classified `(success = true,
deadEnd = false)`; consequently the search, on reaching it, stops there:
it returns the current stack unchanged as the witness (the node's
callers contribute no further edges) and never reports a dead end. -/
theorem C2_spawn_edge_boundary (g : Graph) (nd : Node)
    (hfind : g.find nd.id = some nd)
    (hsup : hasSuppressingDefer g nd = false)
    (hroot : nd.id ≠ g.root)
    (hgo : nd.inE.any isGoEdge = true) :
    endCheck g (some nd) = (true, false) ∧
    ∀ fuel seen stack, some nd.id ∉ seen →
      searchNode g (fuel + 1) seen stack (some nd.id) =
        (some nd.id :: seen, some stack) := by
  have hend : endCheck g (some nd) = (true, false) := by
    simp [endCheck, hsup, hgo, hroot]
  refine ⟨hend, ?_⟩
  intro fuel seen stack hseen
  have hres : resolveRef g (some nd.id) = some nd := by
    simp [resolveRef, hfind]
  rw [searchNode_succ_eq]
  simp [hseen, hres, hend]

/-- C3: the backward search terminates on every finite call graph: a
node already in the visited set returns "no path" for that branch
without recursing, and `g.nodes.length + 2` units of fuel — one
recursion level per node plus the nil reference — already compute the
final answer: any additional fuel leaves `pathToRoot` unchanged. -/
theorem C3_search_terminates (g : Graph) (hwf : g.WF) (p : PanicSite) (k : Nat) :
    (∀ fuel seen stack n, n ∈ seen →
      searchNode g (fuel + 1) seen stack n = (seen, none)) ∧
    pathToRoot g p =
      (searchNode g (defaultFuel g + k) [] [] (g.nodeRef p.parent)).2 := by
  constructor
  · intro fuel seen stack n hseen
    rw [searchNode_succ_eq, if_pos hseen]
  · have heq := searchNode_add_fuel g hwf (defaultFuel g) k [] []
      (g.nodeRef p.parent) (nodeRef_refOK g p.parent) (countUnseen_nil_lt g)
    rw [pathToRoot, heq]

/-- C4: a raise site whose enclosing function is the root node, when
that node has no deferred-call group resolving entirely to
suppression-calling functions, yields a successful witness of length 0
or 1: the search succeeds immediately at the root. -/
theorem C4_root_panic_immediate (g : Graph) (p : PanicSite) (r : Nat) (nd : Node)
    (href : g.nodeRef p.parent = some r)
    (hfind : g.find r = some nd)
    (hroot : nd.id = g.root)
    (hsup : hasSuppressingDefer g nd = false) :
    ∃ w, pathToRoot g p = some w ∧ (w.length = 0 ∨ w.length = 1) := by
  refine ⟨[], ?_, Or.inl rfl⟩
  have hres : resolveRef g (some r) = some nd := by
    simp [resolveRef, hfind]
  have hend : endCheck g (some nd) = (true, false) := by
    simp [endCheck, hsup, hroot]
  have hfuel : defaultFuel g = (g.nodes.length + 1) + 1 := rfl
  rw [pathToRoot, href, hfuel, searchNode_succ_eq]
  simp [hres, hend]

/-- C5 (amended): a raise site whose enclosing function has no
call-graph node is conservatively classified a boundary success
(`end(root, nil) = (true, false)`), and the search returns a successful
*empty* witness; since `main` prints only witnesses of non-zero length,
such a raise site is nevertheless not reported. -/
theorem C5_unresolved_function_empty_witness (g : Graph) (p : PanicSite)
    (h : g.nodeRef p.parent = none) :
    endCheck g none = (true, false) ∧
    pathToRoot g p = some [] ∧
    reported g p = false := by
  have hfuel : defaultFuel g = (g.nodes.length + 1) + 1 := rfl
  have hpath : pathToRoot g p = some [] := by
    rw [pathToRoot, h, hfuel, searchNode_succ_eq]
    simp [resolveRef, endCheck]
  exact ⟨rfl, hpath, by simp [reported, hpath]⟩

/-- C5 counterexample: on a concrete graph whose only node is the root,
a panic in an unresolved function (identity 99, absent from the graph)
makes the search succeed with an empty witness, but the raise site is
*not* reported — `main`'s `len(path) != 0` filter silently drops it,
contrary to the claim that it is reported rather than silently
dropped. -/
theorem C5_counterexample_not_reported :
    Graph.nodeRef ⟨0, [⟨0, ⟨10, []⟩, [], []⟩]⟩ (PanicSite.parent ⟨99, 5⟩) = none ∧
    pathToRoot ⟨0, [⟨0, ⟨10, []⟩, [], []⟩]⟩ ⟨99, 5⟩ = some [] ∧
    reported ⟨0, [⟨0, ⟨10, []⟩, [], []⟩]⟩ ⟨99, 5⟩ = false := by
  decide

/-- C6: the suppression detector returns true iff the function contains,
in any block at any position, a plain call instruction whose callee is
the `recover` built-in — a purely flow-insensitive containment check
with no error conditions. -/
theorem C6_hasRecover_iff (f : Function) :
    hasRecover f = true ↔
      ∃ b ∈ f.blocks, Instr.call (CallValue.builtin "recover") ∈ b := by
  rw [hasRecover, List.any_eq_true]
  constructor
  · rintro ⟨b, hb, hany⟩
    rw [List.any_eq_true] at hany
    obtain ⟨i, hi, hrec⟩ := hany
    exact ⟨b, hb, by rwa [← (isRecoverCall_eq_true i).1 hrec]⟩
  · rintro ⟨b, hb, hmem⟩
    exact ⟨b, hb, List.any_eq_true.2 ⟨_, hmem, (isRecoverCall_eq_true _).2 rfl⟩⟩

/-- C7: the per-raise-site search is deterministic: any two admissible
enumeration orders of the internal defer-group map (each a permutation
of the group keys, per node) produce identical witness paths, and both
agree with the canonical search. -/
theorem C7_search_deterministic (g : Graph) (p : PanicSite)
    (ord1 ord2 : Nat → List Nat)
    (h1 : ∀ nd ∈ g.nodes, (ord1 nd.id).Perm (deferIds nd))
    (h2 : ∀ nd ∈ g.nodes, (ord2 nd.id).Perm (deferIds nd)) :
    pathToRootOrd g ord1 p = pathToRootOrd g ord2 p ∧
    pathToRootOrd g ord1 p = pathToRoot g p := by
  have e1 : pathToRootOrd g ord1 p = pathToRoot g p := by
    rw [pathToRootOrd, pathToRoot, searchNodeOrd_eq g ord1 h1]
  have e2 : pathToRootOrd g ord2 p = pathToRoot g p := by
    rw [pathToRootOrd, pathToRoot, searchNodeOrd_eq g ord2 h2]
  exact ⟨e1.trans e2.symm, e1⟩

/-- C8: the raise locator returns exactly the panic instructions of the
program: membership holds iff some function of the program contains the
panic instruction in one of its blocks, and the result's length is the
total count of panic instructions (nothing filtered, nothing
deduplicated); as a pure function it cannot mutate the program model. -/
theorem C8_findPanics_exact (prog : List Function) (p : PanicSite) :
    (p ∈ findPanics prog ↔
      ∃ f ∈ prog, p.parent = f.fid ∧
        ∃ b ∈ f.blocks, Instr.panicInstr p.pid ∈ b) ∧
    (findPanics prog).length =
      (prog.map (fun f => (f.blocks.map (List.countP isPanicInstr)).sum)).sum := by
  constructor
  · rw [findPanics]
    simp only [List.mem_flatMap, List.mem_filterMap]
    constructor
    · rintro ⟨f, hf, b, hb, i, hi, hmatch⟩
      obtain ⟨rfl, hpar⟩ := panicOf_eq_some.1 hmatch
      exact ⟨f, hf, hpar, b, hb, hi⟩
    · rintro ⟨f, hf, hpar, b, hb, hmem⟩
      exact ⟨f, hf, b, hb, Instr.panicInstr p.pid, hmem,
        panicOf_eq_some.2 ⟨rfl, hpar⟩⟩
  · rw [findPanics, List.length_flatMap]
    apply congrArg
    apply List.map_congr_left
    intro f hf
    simp only [Function.comp_apply]
    rw [List.length_flatMap]
    apply congrArg
    apply List.map_congr_left
    intro b hb
    simpa using length_panics_block f.fid b

/-- C9: every successful witness is a contiguous backward chain: its
first edge ends at the node of the raise site's enclosing function, and
each later edge ends at the node the previous edge started from. -/
theorem C9_witness_chain (g : Graph) (p : PanicSite) (res : List Edge)
    (hwf : g.WF) (h : pathToRoot g p = some res) :
    (∀ e rest, res = e :: rest →
      ∃ r, g.nodeRef p.parent = some r ∧ e.callee = r) ∧
    (∀ pre e e2 post, res = pre ++ e :: e2 :: post → e2.callee = e.caller) := by
  rw [pathToRoot] at h
  have hpair : searchNode g (defaultFuel g) [] [] (g.nodeRef p.parent) =
      ((searchNode g (defaultFuel g) [] [] (g.nodeRef p.parent)).1, some res) := by
    rw [Prod.ext_iff]
    exact ⟨rfl, h⟩
  obtain ⟨ext, hext, hw⟩ := searchNode_success g _ _ _ _ _ _ hpair
  have hres_ext : res = ext := by simpa using hext
  subst hres_ext
  constructor
  · intro e rest hcons
    rw [hcons] at hw
    cases hw with
    | step _ nd _ _ hresolve _ he _ =>
      obtain ⟨hsome, _⟩ := resolveRef_eq_some hresolve
      exact ⟨nd.id, hsome, hwf.1 nd (resolveRef_mem hresolve) e he⟩
  · exact witness_consec hwf.1 hw

/-- C10: the suppression detector inspects only plain call
instructions: a function whose every `recover` invocation is a `Defer`
or `Go` instruction (none a plain call) is not counted as recovering,
and a deferred-call group containing such a callee is never
all-suppressing. -/
theorem C10_only_plain_calls_counted (f : Function)
    (h : ∀ b ∈ f.blocks, ∀ i ∈ b, i ≠ Instr.call (CallValue.builtin "recover")) :
    hasRecover f = false ∧
    ∀ (g : Graph) (cs : List Nat) (c : Nat) (nd : Node),
      g.find c = some nd → nd.fn = f → c ∈ cs → allrecovers g cs = false := by
  have hrec : hasRecover f = false := by
    rw [hasRecover, List.any_eq_false]
    intro b hb hany
    rw [List.any_eq_true] at hany
    obtain ⟨i, hi, hbool⟩ := hany
    exact (h b hb i hi) ((isRecoverCall_eq_true i).1 hbool)
  refine ⟨hrec, ?_⟩
  intro g cs c nd hfind hfn hc
  rw [allrecovers, List.all_eq_false]
  refine ⟨c, hc, ?_⟩
  have hfun : g.funcOfId c = f := by
    rw [Graph.funcOfId, hfind]
    simp [hfn]
  rw [hfun, hrec]
  simp

/-! ### Concrete witness instances -/

/-- A function whose single block is a plain call to `recover`. -/
def fRecW1 : Function := ⟨21, [[Instr.call (CallValue.builtin "recover")]]⟩

/-- Root node with an incoming spawn edge and a deferred call-site (id
4) dispatching only to the recovering node 1. -/
def ndRootW1 : Node :=
  ⟨0, ⟨20, [[Instr.other]]⟩, [⟨2, 0, some ⟨9, SiteKind.goK⟩⟩],
    [⟨0, 1, some ⟨4, SiteKind.deferK⟩⟩]⟩

def ndRecW1 : Node := ⟨1, fRecW1, [⟨0, 1, some ⟨4, SiteKind.deferK⟩⟩], []⟩

def ndSpawnerW1 : Node := ⟨2, ⟨22, []⟩, [], [⟨2, 0, some ⟨9, SiteKind.goK⟩⟩]⟩

def gW1 : Graph := ⟨0, [ndRootW1, ndRecW1, ndSpawnerW1]⟩

theorem C1_suppressing_defer_group_dead_end_witness :
    deferGroup ndRootW1 4 ≠ [] ∧ allrecovers gW1 (deferGroup ndRootW1 4) = true ∧
    endCheck gW1 (some ndRootW1) = (false, true) :=
  ⟨by decide, by decide,
    C1_suppressing_defer_group_dead_end gW1 ndRootW1 4 (by decide) (by decide)⟩

/-- Spawn-boundary node for the C2 witness: node 1 is reached from the
root only via a `Go` edge. -/
def ndAW2 : Node :=
  ⟨1, ⟨31, [[Instr.panicInstr 8]]⟩, [⟨0, 1, some ⟨5, SiteKind.goK⟩⟩], []⟩

def ndRootW2 : Node := ⟨0, ⟨30, []⟩, [], [⟨0, 1, some ⟨5, SiteKind.goK⟩⟩]⟩

def gW2 : Graph := ⟨0, [ndRootW2, ndAW2]⟩

theorem C2_spawn_edge_boundary_witness :
    endCheck gW2 (some ndAW2) = (true, false) ∧
    searchNode gW2 1 [] [] (some 1) = ([some 1], some []) := by
  have hmain := C2_spawn_edge_boundary gW2 ndAW2 (by decide) (by decide)
    (by decide) (by decide)
  exact ⟨hmain.1, hmain.2 0 [] [] (by decide)⟩

/-- Root-only graph containing one panic, for the C3 witness. -/
def ndRootW3 : Node := ⟨0, ⟨40, [[Instr.panicInstr 3]]⟩, [], []⟩

def gW3 : Graph := ⟨0, [ndRootW3]⟩

def pW3 : PanicSite := ⟨40, 3⟩

theorem C3_search_terminates_witness :
    searchNode gW3 3 [some 0] [] (some 0) = ([some 0], none) ∧
    pathToRoot gW3 pW3 =
      (searchNode gW3 (defaultFuel gW3 + 5) [] [] (gW3.nodeRef pW3.parent)).2 := by
  have hmain := C3_search_terminates gW3 (by decide) pW3 5
  exact ⟨hmain.1 2 [some 0] [] (some 0) (by decide), hmain.2⟩

/-- Root-only graph containing one panic, for the C4 witness. -/
def ndRootW4 : Node := ⟨0, ⟨50, [[Instr.panicInstr 6]]⟩, [], []⟩

def gW4 : Graph := ⟨0, [ndRootW4]⟩

def pW4 : PanicSite := ⟨50, 6⟩

theorem C4_root_panic_immediate_witness :
    ∃ w, pathToRoot gW4 pW4 = some w ∧ (w.length = 0 ∨ w.length = 1) :=
  C4_root_panic_immediate gW4 pW4 0 ndRootW4 (by decide) (by decide)
    (by decide) (by decide)

/-- Root-only graph for the C5 witness; the panic's function (identity
61) is absent from the graph. -/
def gW5 : Graph := ⟨0, [⟨0, ⟨60, []⟩, [], []⟩]⟩

def pW5 : PanicSite := ⟨61, 2⟩

theorem C5_unresolved_function_empty_witness_witness :
    endCheck gW5 none = (true, false) ∧ pathToRoot gW5 pW5 = some [] ∧
    reported gW5 pW5 = false :=
  C5_unresolved_function_empty_witness gW5 pW5 (by decide)

/-- Graph for the C7 witness: the root defers two distinct call-sites,
one resolving to a recovering callee and one not, so the defer map has
two keys whose enumeration order varies between runs. -/
def eD1W7 : Edge := ⟨0, 1, some ⟨1, SiteKind.deferK⟩⟩

def eD2W7 : Edge := ⟨0, 2, some ⟨2, SiteKind.deferK⟩⟩

def ndRootW7 : Node := ⟨0, ⟨70, [[Instr.panicInstr 9]]⟩, [], [eD1W7, eD2W7]⟩

def ndRecW7 : Node := ⟨1, ⟨71, [[Instr.call (CallValue.builtin "recover")]]⟩, [eD1W7], []⟩

def ndOthW7 : Node := ⟨2, ⟨72, [[Instr.other]]⟩, [eD2W7], []⟩

def gW7 : Graph := ⟨0, [ndRootW7, ndRecW7, ndOthW7]⟩

def pW7 : PanicSite := ⟨70, 9⟩

def ordAW7 : Nat → List Nat := fun i => if i == 0 then [1, 2] else []

def ordBW7 : Nat → List Nat := fun i => if i == 0 then [2, 1] else []

theorem C7_search_deterministic_witness :
    pathToRootOrd gW7 ordAW7 pW7 = pathToRootOrd gW7 ordBW7 pW7 ∧
    pathToRootOrd gW7 ordAW7 pW7 = pathToRoot gW7 pW7 :=
  C7_search_deterministic gW7 pW7 ordAW7 ordBW7 (by decide) (by decide)

/-- Two-hop graph Root ← A ← B for the C9 witness; B panics. -/
def eRAW9 : Edge := ⟨0, 1, some ⟨1, SiteKind.callK⟩⟩

def eABW9 : Edge := ⟨1, 2, some ⟨2, SiteKind.callK⟩⟩

def ndRootW9 : Node := ⟨0, ⟨90, []⟩, [], [eRAW9]⟩

def ndAW9 : Node := ⟨1, ⟨91, []⟩, [eRAW9], [eABW9]⟩

def ndBW9 : Node := ⟨2, ⟨92, [[Instr.panicInstr 4]]⟩, [eABW9], []⟩

def gW9 : Graph := ⟨0, [ndRootW9, ndAW9, ndBW9]⟩

def pW9 : PanicSite := ⟨92, 4⟩

theorem C9_witness_chain_witness :
    eRAW9.callee = eABW9.caller ∧
    ∃ r, gW9.nodeRef pW9.parent = some r ∧ eABW9.callee = r := by
  have hmain := C9_witness_chain gW9 pW9 [eABW9, eRAW9] (by decide) (by decide)
  exact ⟨hmain.2 [] eABW9 eRAW9 [] rfl, hmain.1 eABW9 [eRAW9] rfl⟩

/-- A function invoking `recover` only via `Defer` and `Go`
instructions, never as a plain call, for the C10 witness. -/
def fW10 : Function :=
  ⟨80, [[Instr.deferCall (CallValue.builtin "recover"),
         Instr.goCall (CallValue.builtin "recover")]]⟩

def ndW10 : Node := ⟨1, fW10, [], []⟩

def gW10 : Graph := ⟨0, [⟨0, ⟨81, []⟩, [], []⟩, ndW10]⟩

theorem C10_only_plain_calls_counted_witness :
    hasRecover fW10 = false ∧ allrecovers gW10 [1] = false := by
  have hmain := C10_only_plain_calls_counted fW10 (by decide)
  exact ⟨hmain.1, hmain.2 gW10 [1] 1 ndW10 (by decide) (by decide) (by decide)⟩

end Reckt
